import Mathlib

/-!
# OrbitWatch — verification of the orbital geometry and scheduling core

Shallow embedding of the algorithmic core of the OrbitWatch ISS tracker:
the trail buffer and its antimeridian segmentation (`addTrailPoint`,
src/js/app.js), the subsolar-point computation (`getSunPosition`,
src/js/app.js), the pass-prediction sampling loop (`computePasses`,
src/js/predictions.js) and the meteor-shower calendar
(`getActiveAndUpcomingShowers`, src/js/predictions.js).

JavaScript numbers are modelled as exact values: millisecond timestamps as
integers (they are far below 2^53, so JS arithmetic on them is exact) and
angles/elevations as rationals.  External collaborators (the satellite.js
propagator and the solar-calculator helpers) are parameters of the
embedding, as the spec treats them as black boxes.
-/

namespace OrbitWatch

/-! ## Trail buffer and antimeridian segmentation (src/js/app.js, `addTrailPoint`)

A trail point is a `[lat, lng]` pair; we use `ℚ × ℚ` with `.2` the
longitude.  The source function `addTrailPoint` first updates the bounded
buffer (push, then shift once the length exceeds `CONFIG.TRAIL_MAX = 60`)
and then, when at least 2 points are present, recomputes the polyline
segments, splitting whenever consecutive longitudes differ by more than
180°.  We embed the two phases as `addTrailPoint` (the buffer update) and
`segmentTrail` (the segmentation loop).
-/

/-- A ground-track point `[lat, lng]` (src/js/app.js pushes `[lat, lng]`). -/
abbrev TrailPoint : Type := ℚ × ℚ

/-- `CONFIG.TRAIL_MAX` (src/js/app.js line 34). -/
def TRAIL_MAX : ℕ := 60

/-- Buffer update of `addTrailPoint` (src/js/app.js lines 628–633):
`state.trailPoints.push([lat, lng])`, then
`if (state.trailPoints.length > CONFIG.TRAIL_MAX) state.trailPoints.shift()`. -/
def addTrailPoint (trail : List TrailPoint) (p : TrailPoint) : List TrailPoint :=
  let pushed := trail ++ [p]
  if TRAIL_MAX < pushed.length then pushed.tail else pushed

/-- The segmentation loop of `addTrailPoint` (src/js/app.js lines 640–650).
`prev` is `trailPoints[i-1]`, `currentSeg` the segment being built, `segs`
the segments already closed, and the list argument the remaining points
`trailPoints[i..]`. -/
def segLoop (prev : TrailPoint) (currentSeg : List TrailPoint)
    (segs : List (List TrailPoint)) : List TrailPoint → List (List TrailPoint)
  | [] => segs ++ [currentSeg]
  | q :: rest =>
    if 180 < |q.2 - prev.2| then
      segLoop q [q] (segs ++ [currentSeg]) rest
    else
      segLoop q (currentSeg ++ [q]) segs rest

/-- Antimeridian segmentation of the trail (src/js/app.js lines 636–650):
runs only when the buffer has at least 2 points; starts with
`currentSeg = [trailPoints[0]]` and walks the buffer pairwise. -/
def segmentTrail : List TrailPoint → List (List TrailPoint)
  | [] => []
  | [_] => []
  | p :: rest => segLoop p [p] [] rest

/-- The adjacency relation inside a drawable segment: no antimeridian jump
(consecutive longitudes differ by at most 180°). -/
def noJump (p q : TrailPoint) : Prop := |q.2 - p.2| ≤ 180

/-- Flattening the segments recovers the already-closed segments, the
segment under construction and the unprocessed points, in order. -/
lemma segLoop_flatten : ∀ (l : List TrailPoint) (prev : TrailPoint)
    (cur : List TrailPoint) (segs : List (List TrailPoint)),
    (segLoop prev cur segs l).flatten = segs.flatten ++ cur ++ l
  | [], _, cur, segs => by simp [segLoop]
  | q :: rest, prev, cur, segs => by
    by_cases h : 180 < |q.2 - prev.2|
    · rw [segLoop, if_pos h, segLoop_flatten]
      simp
    · rw [segLoop, if_neg h, segLoop_flatten]
      simp

/-- The segmentation loop never emits an empty segment. -/
lemma segLoop_ne_nil : ∀ (l : List TrailPoint) (prev : TrailPoint)
    (cur : List TrailPoint) (segs : List (List TrailPoint)),
    cur ≠ [] → (∀ s ∈ segs, s ≠ []) →
    ∀ s ∈ segLoop prev cur segs l, s ≠ []
  | [], _, cur, segs => by
    intro hc hs s hmem
    rw [segLoop] at hmem
    rcases List.mem_append.1 hmem with h | h
    · exact hs s h
    · simpa using List.mem_singleton.1 h ▸ hc
  | q :: rest, prev, cur, segs => by
    intro hc hs s hmem
    rw [segLoop] at hmem
    by_cases h : 180 < |q.2 - prev.2|
    · rw [if_pos h] at hmem
      refine segLoop_ne_nil rest q [q] (segs ++ [cur]) (by simp) ?_ s hmem
      intro s' hs'
      rcases List.mem_append.1 hs' with h' | h'
      · exact hs s' h'
      · simpa using List.mem_singleton.1 h' ▸ hc
    · rw [if_neg h] at hmem
      exact segLoop_ne_nil rest q (cur ++ [q]) segs (by simp [hc]) hs s hmem

/-- Every segment emitted by the loop is free of internal antimeridian
jumps, provided the segment under construction is and ends at `prev`. -/
lemma segLoop_chain : ∀ (l : List TrailPoint) (prev : TrailPoint)
    (cur : List TrailPoint) (segs : List (List TrailPoint)),
    (∀ s ∈ segs, List.Chain' noJump s) → List.Chain' noJump cur →
    cur.getLast? = some prev →
    ∀ s ∈ segLoop prev cur segs l, List.Chain' noJump s
  | [], _, cur, segs => by
    intro hs hc _ s hmem
    rw [segLoop] at hmem
    rcases List.mem_append.1 hmem with h | h
    · exact hs s h
    · rwa [List.mem_singleton.1 h]
  | q :: rest, prev, cur, segs => by
    intro hs hc hlast s hmem
    rw [segLoop] at hmem
    by_cases h : 180 < |q.2 - prev.2|
    · rw [if_pos h] at hmem
      refine segLoop_chain rest q [q] (segs ++ [cur]) ?_ (List.chain'_singleton q) rfl s hmem
      intro s' hs'
      rcases List.mem_append.1 hs' with h' | h'
      · exact hs s' h'
      · rwa [List.mem_singleton.1 h']
    · rw [if_neg h] at hmem
      refine segLoop_chain rest q (cur ++ [q]) segs hs ?_ (by simp) s hmem
      rw [List.chain'_append]
      refine ⟨hc, List.chain'_singleton q, ?_⟩
      intro x hx y hy
      rw [hlast] at hx
      simp at hx hy
      subst hx; subst hy
      exact le_of_not_lt h

/-- A crossing at the very last pair: the loop ends by emitting `[q]`. -/
lemma segLoop_last_crossing_base (prev : TrailPoint) (cur : List TrailPoint)
    (segs : List (List TrailPoint)) (q : TrailPoint) (h : 180 < |q.2 - prev.2|) :
    (segLoop prev cur segs [q]).getLast? = some [q] := by
  rw [segLoop, if_pos h, segLoop]
  simp

/-- A crossing between the last two buffer points makes the final emitted
segment the singleton of the last point. -/
lemma segLoop_last_crossing : ∀ (l : List TrailPoint) (prev : TrailPoint)
    (cur : List TrailPoint) (segs : List (List TrailPoint)) (p q : TrailPoint),
    180 < |q.2 - p.2| →
    (segLoop prev cur segs (l ++ [p, q])).getLast? = some [q]
  | [], prev, cur, segs, p, q => by
    intro hpq
    show (segLoop prev cur segs [p, q]).getLast? = some [q]
    rw [segLoop]
    by_cases h : 180 < |p.2 - prev.2|
    · rw [if_pos h]
      exact segLoop_last_crossing_base p [p] (segs ++ [cur]) q hpq
    · rw [if_neg h]
      exact segLoop_last_crossing_base p (cur ++ [p]) segs q hpq
  | a :: l, prev, cur, segs, p, q => by
    intro hpq
    show (segLoop prev cur segs (a :: (l ++ [p, q]))).getLast? = some [q]
    rw [segLoop]
    by_cases h : 180 < |a.2 - prev.2|
    · rw [if_pos h]; exact segLoop_last_crossing l a [a] (segs ++ [cur]) p q hpq
    · rw [if_neg h]; exact segLoop_last_crossing l a (cur ++ [a]) segs p q hpq

/-- Folding `addTrailPoint` keeps exactly the most recent 60 points. -/
lemma addTrailPoint_foldl (ps : List TrailPoint) :
    ∀ b : List TrailPoint, b.length ≤ 60 →
    ps.foldl addTrailPoint b = (b ++ ps).drop ((b ++ ps).length - 60) := by
  induction ps with
  | nil =>
    intro b hb
    simp [Nat.sub_eq_zero_of_le hb]
  | cons p ps ih =>
    intro b hb
    have hstep : addTrailPoint b p = (b ++ [p]).drop (b.length + 1 - 60) := by
      unfold addTrailPoint TRAIL_MAX
      by_cases h : 60 < (b ++ [p]).length
      · rw [if_pos h]
        have hb60 : b.length = 60 := by simp at h; omega
        rw [show b.length + 1 - 60 = 1 by omega, List.drop_one]
      · rw [if_neg h]
        simp at h
        rw [Nat.sub_eq_zero_of_le (by omega), List.drop_zero]
    have hlen : (addTrailPoint b p).length ≤ 60 := by
      rw [hstep, List.length_drop]
      simp
      omega
    rw [List.foldl_cons, ih _ hlen, hstep]
    have hk : b.length + 1 - 60 ≤ (b ++ [p]).length := by simp; omega
    have hassoc : b ++ [p] ++ ps = b ++ p :: ps := by simp
    rw [← List.drop_append_of_le_length hk, List.drop_drop, List.length_drop, hassoc]
    have harith : b.length + 1 - 60 + ((b ++ p :: ps).length - (b.length + 1 - 60) - 60)
        = (b ++ p :: ps).length - 60 := by
      rw [List.length_append, List.length_cons]
      omega
    rw [harith]

/-- C4: for every trail buffer with at least 2 points, every segment
produced by the antimeridian segmentation contains no internal longitude
jump greater than 180°: any two consecutive points inside one produced
segment have longitudes at most 180° apart. -/
theorem c4_segments_no_internal_jump (t : List TrailPoint) (h : 2 ≤ t.length) :
    ∀ s ∈ segmentTrail t, List.Chain' noJump s := by
  match t with
  | [] => simp at h
  | [_] => simp at h
  | p :: q :: rest =>
    exact segLoop_chain (q :: rest) p [p] [] (by simp) (List.chain'_singleton p) rfl

/-- Witness for C4 at the concrete buffer
`[(10,170),(10,175),(10,-179),(10,-175)]`. -/
theorem c4_segments_no_internal_jump_witness :
    2 ≤ ([((10:ℚ),(170:ℚ)),(10,175),(10,-179),(10,-175)] : List TrailPoint).length ∧
    ∀ s ∈ segmentTrail [((10:ℚ),(170:ℚ)),(10,175),(10,-179),(10,-175)], List.Chain' noJump s :=
  ⟨by decide, c4_segments_no_internal_jump _ (by decide)⟩

/-- C5: segmenting the concrete buffer
`[(10,170),(10,175),(10,-179),(10,-175)]` yields exactly the two segments
`[(10,170),(10,175)]` and `[(10,-179),(10,-175)]`. -/
theorem c5_segment_concrete_example :
    segmentTrail [((10:ℚ),(170:ℚ)),(10,175),(10,-179),(10,-175)]
      = [[(10,170),(10,175)],[(10,-179),(10,-175)]] := by
  norm_num [segmentTrail, segLoop]

/-- C6: starting from an empty trail buffer, after any sequence of
`addTrailPoint` calls the buffer holds at most 60 points, and after more
than 60 additions it holds exactly the 60 most recent points in insertion
order (the oldest points having been evicted). -/
theorem c6_trail_capacity (ps : List TrailPoint) :
    (ps.foldl addTrailPoint []).length ≤ 60 ∧
    (60 < ps.length → ps.foldl addTrailPoint [] = ps.drop (ps.length - 60)) := by
  have hfold := addTrailPoint_foldl ps [] (by simp)
  simp only [List.nil_append] at hfold
  constructor
  · rw [hfold, List.length_drop]
    omega
  · intro _
    exact hfold

/-- Witness for C6: 61 distinct points added to the empty buffer leave the
most recent 60. -/
theorem c6_trail_capacity_witness :
    60 < ((List.range 61).map (fun i => ((i:ℚ), (0:ℚ)))).length ∧
    (((List.range 61).map (fun i => ((i:ℚ), (0:ℚ)))).foldl addTrailPoint []).length ≤ 60 ∧
    ((List.range 61).map (fun i => ((i:ℚ), (0:ℚ)))).foldl addTrailPoint []
      = ((List.range 61).map (fun i => ((i:ℚ), (0:ℚ)))).drop
          (((List.range 61).map (fun i => ((i:ℚ), (0:ℚ)))).length - 60) :=
  ⟨by decide,
   (c6_trail_capacity _).1,
   (c6_trail_capacity _).2 (by decide)⟩

/-- C9: for every trail buffer with at least 2 points, the produced
segments are an order-preserving partition of the buffer (their
concatenation is exactly the buffer and none is empty), and a crossing
between the last two buffer points yields a final segment holding exactly
the last point. -/
theorem c9_segments_partition (t : List TrailPoint) (h : 2 ≤ t.length) :
    (segmentTrail t).flatten = t ∧
    (∀ s ∈ segmentTrail t, s ≠ []) ∧
    (∀ (init : List TrailPoint) (p q : TrailPoint), t = init ++ [p, q] →
      180 < |q.2 - p.2| → (segmentTrail t).getLast? = some [q]) := by
  match t with
  | [] => simp at h
  | [_] => simp at h
  | x :: y :: rest =>
    refine ⟨?_, ?_, ?_⟩
    · rw [show segmentTrail (x :: y :: rest) = segLoop x [x] [] (y :: rest) from rfl,
        segLoop_flatten]
      simp
    · exact segLoop_ne_nil (y :: rest) x [x] [] (by simp) (by simp)
    · intro init p q heq hcross
      match init with
      | [] =>
        simp only [List.nil_append, List.cons.injEq] at heq
        obtain ⟨h1, h2, h3⟩ := heq
        rw [h3, ← h2]
        rw [← h1, ← h2] at hcross
        exact segLoop_last_crossing_base x [x] [] y hcross
      | a :: init' =>
        simp only [List.cons_append, List.cons.injEq] at heq
        obtain ⟨rfl, heq2⟩ := heq
        rw [show segmentTrail (x :: y :: rest) = segLoop x [x] [] (y :: rest) from rfl, heq2]
        exact segLoop_last_crossing init' x [x] [] p q hcross

/-- Witness for C9 at a concrete buffer with a crossing at the last pair. -/
theorem c9_segments_partition_witness :
    2 ≤ ([((0:ℚ),(100:ℚ)),(0,-99),(0,101)] : List TrailPoint).length ∧
    ((segmentTrail [((0:ℚ),(100:ℚ)),(0,-99),(0,101)]).flatten
        = [((0:ℚ),(100:ℚ)),(0,-99),(0,101)] ∧
      (∀ s ∈ segmentTrail [((0:ℚ),(100:ℚ)),(0,-99),(0,101)], s ≠ []) ∧
      (∀ (init : List TrailPoint) (p q : TrailPoint),
        [((0:ℚ),(100:ℚ)),(0,-99),(0,101)] = init ++ [p, q] →
        180 < |q.2 - p.2| →
        (segmentTrail [((0:ℚ),(100:ℚ)),(0,-99),(0,101)]).getLast? = some [q])) :=
  ⟨by decide, c9_segments_partition _ (by decide)⟩

/-! ## Subsolar point (src/js/app.js, `getSunPosition`, lines 181–186)

The solar-calculator helpers (`solar.century`, `solar.equationOfTime`,
`solar.declination`) are an external library (imported from
`esm.sh/solar-calculator`), so they are parameters of the embedding.
Timestamps are integer milliseconds since the Unix epoch;
`new Date(+dt).setUTCHours(0, 0, 0, 0)` truncates a timestamp to the start
of its UTC day. -/

/-- The external solar-calculator helpers, treated as black boxes:
`century` maps a timestamp to the Julian-century fraction `T`,
`equationOfTime` (minutes) and `declination` (degrees) map `T` onwards. -/
structure SolarCalc where
  century : ℤ → ℚ
  equationOfTime : ℚ → ℚ
  declination : ℚ → ℚ

/-- `new Date(+dt).setUTCHours(0, 0, 0, 0)`: the timestamp truncated to
UTC midnight of its day. -/
def dayStartUTC (dt : ℤ) : ℤ := dt - dt % 86400000

/-- `getSunPosition` (src/js/app.js lines 181–186): returns
`[subsolar longitude, subsolar declination]`. -/
def getSunPosition (solar : SolarCalc) (dt : ℤ) : ℚ × ℚ :=
  let day := dayStartUTC dt
  let t := solar.century dt
  let longitude : ℚ := ((day : ℚ) - (dt : ℚ)) / 86400000 * 360 - 180
  (longitude - solar.equationOfTime t / 4, solar.declination t)

/-- C8: for every timestamp (and every solar-calculator helper),
`getSunPosition` returns longitude
`(dayStartUTC - timestamp)/86400000 * 360 - 180 - equationOfTime(T)/4`
and declination `solarDeclination(T)`, where `T` is the Julian-century
fraction of the timestamp and `dayStartUTC` is the timestamp truncated to
UTC midnight (a multiple of 86400000 ms at most one day before it). -/
theorem c8_subsolar_point (solar : SolarCalc) (dt : ℤ) :
    getSunPosition solar dt
      = (((dayStartUTC dt : ℚ) - (dt : ℚ)) / 86400000 * 360 - 180
          - solar.equationOfTime (solar.century dt) / 4,
         solar.declination (solar.century dt)) ∧
    (86400000 : ℤ) ∣ dayStartUTC dt ∧
    dayStartUTC dt ≤ dt ∧ dt < dayStartUTC dt + 86400000 := by
  refine ⟨rfl, ?_, ?_, ?_⟩ <;> unfold dayStartUTC <;> omega


/-! ## Meteor shower calendar (src/js/predictions.js, lines 222–273)

The source parses 'MM-DD' strings with `parseMMDD` into JS `Date`s
(`new Date(year, m - 1, d)`) and compares/subtracts them numerically.  We
model an instant by the civil fields the JS accessors expose
(`getFullYear()`, `getMonth()`, `getDate()`) plus the milliseconds elapsed
in the day, and model `new Date(y, m - 1, d)` by an exact
Gregorian-calendar millisecond timestamp (the embedding identifies the
local timezone with UTC). -/

/-- One row of the `METEOR_SHOWERS` table; `peak`, `start`, `end` are
month–day pairs (the source's 'MM-DD' strings). -/
structure MeteorShower where
  name : String
  peakMonth : ℕ
  peakDay : ℕ
  startMonth : ℕ
  startDay : ℕ
  endMonth : ℕ
  endDay : ℕ
  rate : ℕ
  parent : String
deriving DecidableEq

/-- The `METEOR_SHOWERS` table (src/js/predictions.js lines 222–233). -/
def METEOR_SHOWERS : List MeteorShower := [
  { name := "Quadrantids", peakMonth := 1, peakDay := 3, startMonth := 12, startDay := 28,
    endMonth := 1, endDay := 12, rate := 120, parent := "2003 EH1" },
  { name := "Lyrids", peakMonth := 4, peakDay := 22, startMonth := 4, startDay := 16,
    endMonth := 4, endDay := 25, rate := 18, parent := "C/1861 G1 (Thatcher)" },
  { name := "Eta Aquariids", peakMonth := 5, peakDay := 6, startMonth := 4, startDay := 19,
    endMonth := 5, endDay := 28, rate := 50, parent := "1P/Halley" },
  { name := "Delta Aquariids", peakMonth := 7, peakDay := 30, startMonth := 7, startDay := 12,
    endMonth := 8, endDay := 23, rate := 25, parent := "96P/Machholz" },
  { name := "Perseids", peakMonth := 8, peakDay := 12, startMonth := 7, startDay := 17,
    endMonth := 8, endDay := 24, rate := 100, parent := "109P/Swift-Tuttle" },
  { name := "Draconids", peakMonth := 10, peakDay := 8, startMonth := 10, startDay := 6,
    endMonth := 10, endDay := 10, rate := 10, parent := "21P/Giacobini-Zinner" },
  { name := "Orionids", peakMonth := 10, peakDay := 21, startMonth := 10, startDay := 2,
    endMonth := 11, endDay := 7, rate := 20, parent := "1P/Halley" },
  { name := "Leonids", peakMonth := 11, peakDay := 17, startMonth := 11, startDay := 6,
    endMonth := 11, endDay := 30, rate := 15, parent := "55P/Tempel-Tuttle" },
  { name := "Geminids", peakMonth := 12, peakDay := 14, startMonth := 12, startDay := 4,
    endMonth := 12, endDay := 17, rate := 150, parent := "3200 Phaethon" },
  { name := "Ursids", peakMonth := 12, peakDay := 22, startMonth := 12, startDay := 17,
    endMonth := 12, endDay := 26, rate := 10, parent := "8P/Tuttle" }]

/-- Gregorian leap year, as implemented by the JS `Date` calendar. -/
def isLeap (y : ℕ) : Bool := y % 4 == 0 && (y % 100 != 0 || y % 400 == 0)

/-- Number of Gregorian leap years in `[1..y]`. -/
def leapsUpTo (y : ℕ) : ℕ := y / 4 - y / 100 + y / 400

/-- Days from 1970-01-01 to `y`-01-01 (for `y ≥ 1970`). -/
def daysToYear (y : ℕ) : ℕ := 365 * (y - 1970) + (leapsUpTo (y - 1) - leapsUpTo 1969)

/-- Day offset of `m`/1 (1-based month) inside a year. -/
def monthOffset (leap : Bool) (m : ℕ) : ℕ :=
  let l := if leap then 1 else 0
  match m with
  | 1 => 0 | 2 => 31 | 3 => 59 + l | 4 => 90 + l | 5 => 120 + l | 6 => 151 + l
  | 7 => 181 + l | 8 => 212 + l | 9 => 243 + l | 10 => 273 + l | 11 => 304 + l
  | 12 => 334 + l | _ => 0

/-- Days from 1970-01-01 to `y`-`m`-`d`. -/
def daysFromCivil (y m d : ℕ) : ℕ := daysToYear y + monthOffset (isLeap y) m + (d - 1)

/-- Millisecond timestamp of midnight of `y`-`m`-`d`: the numeric value of
`new Date(y, m - 1, d)`. -/
def msFromCivil (y m d : ℕ) : ℕ := 86400000 * daysFromCivil y m d

/-- `parseMMDD` (src/js/predictions.js lines 235–238). -/
def parseMMDD (m d year : ℕ) : ℕ := msFromCivil year m d

/-- An instant as JS `Date` accessors expose it: `year = getFullYear()`,
`month - 1 = getMonth()` (JS months are 0-based), `day = getDate()`, and
the milliseconds already elapsed in the day. -/
structure CivilTime where
  year : ℕ
  month : ℕ
  day : ℕ
  msOfDay : ℕ

/-- The numeric (millisecond) value of the instant. -/
def CivilTime.toMs (c : CivilTime) : ℕ := msFromCivil c.year c.month c.day + c.msOfDay

/-- `Math.ceil(a / b)` for integer `a` and positive integer `b`. -/
def jsCeil (a b : ℤ) : ℤ := -((-a).fdiv b)

/-- The per-shower quantities computed inside the `forEach` of
`getActiveAndUpcomingShowers` (src/js/predictions.js lines 246–264). -/
structure ShowerStatus where
  isPeak : Bool
  isActive : Bool
  daysUntilStart : ℤ
  daysUntilPeak : ℤ

/-- Body of the `forEach` loop of `getActiveAndUpcomingShowers`
(src/js/predictions.js lines 246–264): anchor the shower's dates to the
current year, re-anchor across the year boundary when `end < start`, and
compute the activity/peak quantities. -/
def showerStatus (now : CivilTime) (s : MeteorShower) : ShowerStatus :=
  let year := now.year
  let start0 : ℤ := parseMMDD s.startMonth s.startDay year
  let end0 : ℤ := parseMMDD s.endMonth s.endDay year
  let peak0 : ℤ := parseMMDD s.peakMonth s.peakDay year
  -- `if (end < start)`: the shower wraps the year boundary;
  -- `now.getMonth() < 6` is `now.month - 1 < 6` (getMonth is 0-based)
  let firstHalf := now.month - 1 < 6
  let start1 : ℤ :=
    if end0 < start0 ∧ firstHalf then parseMMDD s.startMonth s.startDay (year - 1) else start0
  let end1 : ℤ :=
    if end0 < start0 ∧ ¬firstHalf then parseMMDD s.endMonth s.endDay (year + 1) else end0
  let peak1 : ℤ :=
    if end0 < start0 ∧ ¬firstHalf then parseMMDD s.peakMonth s.peakDay (year + 1) else peak0
  let nowMs : ℤ := now.toMs
  { isPeak := decide ((nowMs - peak1).natAbs < 24 * 60 * 60 * 1000),
    isActive := decide (start1 ≤ nowMs ∧ nowMs ≤ end1),
    daysUntilStart := jsCeil (start1 - nowMs) (1000 * 60 * 60 * 24),
    daysUntilPeak := jsCeil (peak1 - nowMs) (1000 * 60 * 60 * 24) }

/-- An entry of the `active` list: `{ ...shower, isPeak, daysUntilPeak }`. -/
structure ActiveShower extends MeteorShower where
  isPeak : Bool
  daysUntilPeak : ℤ

/-- An entry of the `upcoming` list: `{ ...shower, daysUntilStart }`. -/
structure UpcomingShower extends MeteorShower where
  daysUntilStart : ℤ

/-- The entry a shower contributes to the `active` list, if any:
`active.push({ ...shower, isPeak, daysUntilPeak })` when `isActive`. -/
def activeEntry (now : CivilTime) (s : MeteorShower) : Option ActiveShower :=
  let st := showerStatus now s
  if st.isActive then
    some { toMeteorShower := s, isPeak := st.isPeak, daysUntilPeak := st.daysUntilPeak }
  else none

/-- The entry a shower contributes to the `upcoming` list, if any:
`upcoming.push({ ...shower, daysUntilStart })` when not active and
`0 < daysUntilStart ≤ 60`. -/
def upcomingEntry (now : CivilTime) (s : MeteorShower) : Option UpcomingShower :=
  let st := showerStatus now s
  if st.isActive = false ∧ 0 < st.daysUntilStart ∧ st.daysUntilStart ≤ 60 then
    some { toMeteorShower := s, daysUntilStart := st.daysUntilStart }
  else none

/-- `getActiveAndUpcomingShowers` (src/js/predictions.js lines 240–273):
one pass over the table, pushing active rows into `active` and not-active
rows starting within 60 days into `upcoming`. -/
def getActiveAndUpcomingShowers (now : CivilTime) :
    List ActiveShower × List UpcomingShower :=
  (METEOR_SHOWERS.filterMap (activeEntry now), METEOR_SHOWERS.filterMap (upcomingEntry now))

/-- A shower whose status is active contributes an entry (with its name)
to the `active` list. -/
lemma mem_active_of_isActive (now : CivilTime) (s : MeteorShower)
    (hs : s ∈ METEOR_SHOWERS) (h : (showerStatus now s).isActive = true) :
    ∃ r ∈ (getActiveAndUpcomingShowers now).1, r.name = s.name := by
  refine ⟨{ toMeteorShower := s, isPeak := (showerStatus now s).isPeak,
            daysUntilPeak := (showerStatus now s).daysUntilPeak }, ?_, rfl⟩
  simp only [getActiveAndUpcomingShowers]
  refine List.mem_filterMap.mpr ⟨s, hs, ?_⟩
  simp only [activeEntry, h, if_true]

lemma isLeap_eq_true_iff (n : ℕ) :
    isLeap n = true ↔ n % 4 = 0 ∧ (n % 100 ≠ 0 ∨ n % 400 = 0) := by
  simp [isLeap]

set_option maxHeartbeats 1000000 in
/-- Counting leap years in `[1..n]` steps by the leap-year indicator. -/
lemma leapsUpTo_succ (n : ℕ) (hn : 1 ≤ n) :
    leapsUpTo n = leapsUpTo (n - 1) + (if isLeap n then 1 else 0) := by
  by_cases hp : n % 4 = 0 ∧ (n % 100 ≠ 0 ∨ n % 400 = 0)
  · rw [if_pos ((isLeap_eq_true_iff n).2 hp)]
    unfold leapsUpTo
    omega
  · rw [if_neg (fun h => hp ((isLeap_eq_true_iff n).1 h))]
    unfold leapsUpTo
    omega

lemma leapsUpTo_le_succ (b : ℕ) : leapsUpTo b ≤ leapsUpTo (b + 1) := by
  have h2 := leapsUpTo_succ (b + 1) (by omega)
  have hb : b + 1 - 1 = b := by omega
  rw [hb] at h2
  by_cases hL : isLeap (b + 1) <;> simp [hL] at h2 <;> omega

lemma leapsUpTo_mono {a b : ℕ} (h : a ≤ b) : leapsUpTo a ≤ leapsUpTo b := by
  induction b with
  | zero =>
    have ha : a = 0 := by omega
    rw [ha]
  | succ b ih =>
    rcases Nat.lt_or_ge a (b + 1) with h2 | h2
    · exact le_trans (ih (by omega)) (leapsUpTo_le_succ b)
    · have ha : a = b + 1 := by omega
      rw [ha]

/-- A non-leap year has 365 days, a leap year 366. -/
lemma daysToYear_succ (y : ℕ) (hy : 1971 ≤ y) :
    daysToYear y = daysToYear (y - 1) + 365 + (if isLeap (y - 1) then 1 else 0) := by
  have hstep := leapsUpTo_succ (y - 1) (by omega)
  have hmono : leapsUpTo 1969 ≤ leapsUpTo (y - 1 - 1) := leapsUpTo_mono (by omega)
  unfold daysToYear
  by_cases hL : isLeap (y - 1) <;> simp [hL] at hstep ⊢ <;> omega

lemma days_dec28_lt_jan5 (y : ℕ) (hy : 1971 ≤ y) :
    daysFromCivil (y - 1) 12 28 + 8 = daysFromCivil y 1 5 := by
  unfold daysFromCivil
  rw [daysToYear_succ y hy]
  by_cases hL : isLeap (y - 1) <;> by_cases hLy : isLeap y <;>
    simp [monthOffset, hL, hLy]

lemma days_jan5_le_jan12 (y : ℕ) :
    daysFromCivil y 1 5 + 7 = daysFromCivil y 1 12 := by
  unfold daysFromCivil
  simp [monthOffset]

lemma days_jan12_lt_dec28 (y : ℕ) :
    daysFromCivil y 1 12 < daysFromCivil y 12 28 := by
  unfold daysFromCivil
  by_cases hLy : isLeap y <;> simp [monthOffset, hLy]

lemma days_dec28_le_dec29 (y : ℕ) :
    daysFromCivil y 12 28 + 1 = daysFromCivil y 12 29 := by
  unfold daysFromCivil
  by_cases hLy : isLeap y <;> simp [monthOffset, hLy]

lemma days_dec29_le_jan12 (y : ℕ) (hy : 1970 ≤ y) :
    daysFromCivil y 12 29 + 14 = daysFromCivil (y + 1) 1 12 := by
  unfold daysFromCivil
  have hs := daysToYear_succ (y + 1) (by omega)
  have hy1 : y + 1 - 1 = y := by omega
  rw [hy1] at hs
  rw [hs]
  by_cases hLy : isLeap y <;> by_cases hLy1 : isLeap (y + 1) <;>
    simp [monthOffset, hLy, hLy1]

/-- On any instant of January 5 the Quadrantids row is classified active:
its wrap is detected (`end < start`), January is in the first half of the
year, so `start` is re-anchored to December 28 of the previous year. -/
lemma quadrantids_isActive_jan5 (y ms : ℕ) (hy : 1971 ≤ y) (hms : ms < 86400000) :
    (showerStatus ⟨y, 1, 5, ms⟩
      { name := "Quadrantids", peakMonth := 1, peakDay := 3, startMonth := 12, startDay := 28,
        endMonth := 1, endDay := 12, rate := 120, parent := "2003 EH1" }).isActive = true := by
  have hwrap : daysFromCivil y 1 12 < daysFromCivil y 12 28 := days_jan12_lt_dec28 y
  have h1 : daysFromCivil (y - 1) 12 28 + 8 = daysFromCivil y 1 5 := days_dec28_lt_jan5 y hy
  have h2 : daysFromCivil y 1 5 + 7 = daysFromCivil y 1 12 := days_jan5_le_jan12 y
  simp only [showerStatus, CivilTime.toMs, parseMMDD, msFromCivil, decide_eq_true_eq]
  split_ifs with hA hB hC <;> omega

/-- On any instant of December 29 the Quadrantids row is classified
active: December is in the second half of the year, so `end` (and `peak`)
are re-anchored to the next year. -/
lemma quadrantids_isActive_dec29 (y ms : ℕ) (hy : 1971 ≤ y) (hms : ms < 86400000) :
    (showerStatus ⟨y, 12, 29, ms⟩
      { name := "Quadrantids", peakMonth := 1, peakDay := 3, startMonth := 12, startDay := 28,
        endMonth := 1, endDay := 12, rate := 120, parent := "2003 EH1" }).isActive = true := by
  have hwrap : daysFromCivil y 1 12 < daysFromCivil y 12 28 := days_jan12_lt_dec28 y
  have h1 : daysFromCivil y 12 28 + 1 = daysFromCivil y 12 29 := days_dec28_le_dec29 y
  have h2 : daysFromCivil y 12 29 + 14 = daysFromCivil (y + 1) 1 12 :=
    days_dec29_le_jan12 y (by omega)
  simp only [showerStatus, CivilTime.toMs, parseMMDD, msFromCivil, decide_eq_true_eq]
  split_ifs with hA hB hC <;> omega

/-- C7: for the Quadrantids entry (start 12-28, end 01-12),
`getActiveAndUpcomingShowers` evaluated at any instant of January 5 (of
any year ≥ 1971) classifies it as active, and evaluated at any instant of
December 29 also classifies it as active: the year-wrap re-anchoring moves
`start` to the previous year when `now` is in the first half of the year
and moves `end`/`peak` to the next year otherwise. -/
theorem c7_quadrantids_year_wrap (y ms1 ms2 : ℕ) (hy : 1971 ≤ y)
    (h1 : ms1 < 86400000) (h2 : ms2 < 86400000) :
    (∃ r ∈ (getActiveAndUpcomingShowers ⟨y, 1, 5, ms1⟩).1, r.name = "Quadrantids") ∧
    (∃ r ∈ (getActiveAndUpcomingShowers ⟨y, 12, 29, ms2⟩).1, r.name = "Quadrantids") := by
  constructor
  · exact mem_active_of_isActive _ _ (by simp [METEOR_SHOWERS])
      (quadrantids_isActive_jan5 y ms1 hy h1)
  · exact mem_active_of_isActive _ _ (by simp [METEOR_SHOWERS])
      (quadrantids_isActive_dec29 y ms2 hy h2)

/-- Witness for C7: midnight of 2026-01-05 and of 2026-12-29. -/
theorem c7_quadrantids_year_wrap_witness :
    ((1971:ℕ) ≤ 2026 ∧ (0:ℕ) < 86400000) ∧
    ((∃ r ∈ (getActiveAndUpcomingShowers ⟨2026, 1, 5, 0⟩).1, r.name = "Quadrantids") ∧
     (∃ r ∈ (getActiveAndUpcomingShowers ⟨2026, 12, 29, 0⟩).1, r.name = "Quadrantids")) :=
  ⟨⟨by decide, by decide⟩,
   c7_quadrantids_year_wrap 2026 0 0 (by decide) (by decide) (by decide)⟩


/-! ## ISS pass prediction (src/js/predictions.js, `computePasses`, lines 67–125)

The satellite.js propagation and look-angle pipeline (`propagate`,
`gstime`, `eciToEcf`, `ecfToLookAngles` and the angle conversions) is an
external black box; we abstract the whole per-sample computation as a
function `obs : ℤ → Option (ℚ × ℚ)` giving, for a sample time, `none` when
`propagate` yields no position (the sample is skipped) and otherwise the
pair `(elevation°, azimuth°)` seen by the fixed observer.  The loop state
(`inPass`, `currentPass`, `maxEl`, `passes`) and control flow (including
the early `break` at 5 passes) follow the source; the loop runs over the
48-hour window in 10-second steps, so the remaining iteration count is the
`fuel` argument. -/

/-- `MIN_ELEVATION_DEG` (src/js/predictions.js line 13). -/
def MIN_ELEVATION_DEG : ℚ := 10

/-- `stepMs` (line 73): 10-second sampling step, in milliseconds. -/
def stepMs : ℤ := 10000

/-- Iteration count of the sampling loop: `t` runs from `now` while
`t < now + 48*60*60*1000`, stepping by `stepMs`. -/
def numSteps : ℕ := 48 * 60 * 60 * 1000 / 10000

/-- The pass record built by `computePasses` (lines 99–106). -/
structure Pass where
  start : ℤ
  startAz : ℚ
  maxEl : ℚ
  maxElTime : ℤ
  «end» : ℤ
  endAz : ℚ
deriving DecidableEq

/-- The pass record opened on an upward threshold crossing (lines 96–106). -/
def newPass (t : ℤ) (elDeg azDeg : ℚ) : Pass :=
  { start := t, startAz := azDeg, maxEl := elDeg, maxElTime := t, «end» := t, endAz := azDeg }

/-- The per-sample update applied while in a pass (lines 108–114): bump
the running maximum when strictly exceeded, and advance `end`/`endAz`. -/
def updatePass (cp : Pass) (maxEl : ℚ) (t : ℤ) (elDeg azDeg : ℚ) : Pass :=
  let cp1 := if maxEl < elDeg then { cp with maxEl := elDeg, maxElTime := t } else cp
  { cp1 with «end» := t, endAz := azDeg }

/-- The running maximum after a sample (lines 108–109). -/
def newMax (maxEl elDeg : ℚ) : ℚ := if maxEl < elDeg then elDeg else maxEl

/-- The sampling loop of `computePasses` (lines 84–122), as a recursion on
the remaining iteration count.  Each iteration looks at `obs t`; `none`
models `!posVel.position` (the `continue`).  The `(none, _)` branch of the
in-pass case is unreachable from the initial state: the source sets
`currentPass` exactly when it sets `inPass`. -/
def computePassesAux (obs : ℤ → Option (ℚ × ℚ)) :
    ℕ → ℤ → Bool → Option Pass → ℚ → List Pass → List Pass
  | 0, _, _, _, _, passes => passes
  | fuel + 1, t, inPass, currentPass, maxEl, passes =>
    match obs t with
    | none => computePassesAux obs fuel (t + stepMs) inPass currentPass maxEl passes
    | some (elDeg, azDeg) =>
      if MIN_ELEVATION_DEG ≤ elDeg then
        match (if inPass then (currentPass, maxEl)
               else (some (newPass t elDeg azDeg), elDeg)) with
        | (some cp, m) =>
          computePassesAux obs fuel (t + stepMs) true
            (some (updatePass cp m t elDeg azDeg)) (newMax m elDeg) passes
        | (none, m) =>
          computePassesAux obs fuel (t + stepMs) true none m passes
      else if inPass then
        match currentPass with
        | some cp =>
          let passes1 := passes ++ [cp]
          if 5 ≤ passes1.length then passes1
          else computePassesAux obs fuel (t + stepMs) false none 0 passes1
        | none => computePassesAux obs fuel (t + stepMs) false none 0 passes
      else
        computePassesAux obs fuel (t + stepMs) inPass currentPass maxEl passes

/-- `computePasses` (lines 67–125): sample the 48-hour window from `now`
in 10-second steps, starting outside any pass with an empty result list. -/
def computePasses (obs : ℤ → Option (ℚ × ℚ)) (now : ℤ) : List Pass :=
  computePassesAux obs numSteps now false none 0 []

lemma newMax_self (e : ℚ) : newMax e e = e := by
  simp [newMax]

lemma updatePass_newPass (t : ℤ) (e az : ℚ) :
    updatePass (newPass t e az) e t e az = newPass t e az := by
  simp [updatePass, newPass]

lemma computePassesAux_step_none {obs : ℤ → Option (ℚ × ℚ)} {t : ℤ}
    (h : obs t = none) (fuel : ℕ) (ip : Bool) (cp : Option Pass) (m : ℚ) (acc : List Pass) :
    computePassesAux obs (fuel + 1) t ip cp m acc
      = computePassesAux obs fuel (t + stepMs) ip cp m acc := by
  rw [computePassesAux.eq_def]
  dsimp only
  rw [h]

lemma computePassesAux_step_open {obs : ℤ → Option (ℚ × ℚ)} {t : ℤ} {e az : ℚ}
    (h : obs t = some (e, az)) (he : MIN_ELEVATION_DEG ≤ e)
    (fuel : ℕ) (cp : Option Pass) (m : ℚ) (acc : List Pass) :
    computePassesAux obs (fuel + 1) t false cp m acc
      = computePassesAux obs fuel (t + stepMs) true (some (newPass t e az)) e acc := by
  rw [computePassesAux.eq_def]
  dsimp only
  rw [h]
  simp only [if_pos he, Bool.false_eq_true, if_false, updatePass_newPass, newMax_self]

lemma computePassesAux_step_update {obs : ℤ → Option (ℚ × ℚ)} {t : ℤ} {e az : ℚ}
    (h : obs t = some (e, az)) (he : MIN_ELEVATION_DEG ≤ e)
    (fuel : ℕ) (cp : Pass) (m : ℚ) (acc : List Pass) :
    computePassesAux obs (fuel + 1) t true (some cp) m acc
      = computePassesAux obs fuel (t + stepMs) true
          (some (updatePass cp m t e az)) (newMax m e) acc := by
  rw [computePassesAux.eq_def]
  dsimp only
  rw [h]
  simp only [if_pos he, if_true]

lemma computePassesAux_step_close {obs : ℤ → Option (ℚ × ℚ)} {t : ℤ} {e az : ℚ}
    (h : obs t = some (e, az)) (he : ¬ MIN_ELEVATION_DEG ≤ e)
    (fuel : ℕ) (cp : Pass) (m : ℚ) (acc : List Pass) :
    computePassesAux obs (fuel + 1) t true (some cp) m acc
      = if 5 ≤ (acc ++ [cp]).length then acc ++ [cp]
        else computePassesAux obs fuel (t + stepMs) false none 0 (acc ++ [cp]) := by
  rw [computePassesAux.eq_def]
  dsimp only
  rw [h]
  simp only [if_neg he, if_true]

lemma computePassesAux_step_below {obs : ℤ → Option (ℚ × ℚ)} {t : ℤ} {e az : ℚ}
    (h : obs t = some (e, az)) (he : ¬ MIN_ELEVATION_DEG ≤ e)
    (fuel : ℕ) (cp : Option Pass) (m : ℚ) (acc : List Pass) :
    computePassesAux obs (fuel + 1) t false cp m acc
      = computePassesAux obs fuel (t + stepMs) false cp m acc := by
  rw [computePassesAux.eq_def]
  dsimp only
  rw [h]
  simp only [if_neg he, Bool.false_eq_true, if_false]

lemma computePassesAux_step_junk_above {obs : ℤ → Option (ℚ × ℚ)} {t : ℤ} {e az : ℚ}
    (h : obs t = some (e, az)) (he : MIN_ELEVATION_DEG ≤ e)
    (fuel : ℕ) (m : ℚ) (acc : List Pass) :
    computePassesAux obs (fuel + 1) t true none m acc
      = computePassesAux obs fuel (t + stepMs) true none m acc := by
  rw [computePassesAux.eq_def]
  dsimp only
  rw [h]
  simp only [if_pos he, if_true]

lemma computePassesAux_step_junk_below {obs : ℤ → Option (ℚ × ℚ)} {t : ℤ} {e az : ℚ}
    (h : obs t = some (e, az)) (he : ¬ MIN_ELEVATION_DEG ≤ e)
    (fuel : ℕ) (m : ℚ) (acc : List Pass) :
    computePassesAux obs (fuel + 1) t true none m acc
      = computePassesAux obs fuel (t + stepMs) false none 0 acc := by
  rw [computePassesAux.eq_def]
  dsimp only
  rw [h]
  simp only [if_neg he, if_true]

lemma updatePass_start (cp : Pass) (m : ℚ) (t : ℤ) (e az : ℚ) :
    (updatePass cp m t e az).start = cp.start := by
  simp only [updatePass]
  split_ifs <;> rfl

lemma updatePass_startAz (cp : Pass) (m : ℚ) (t : ℤ) (e az : ℚ) :
    (updatePass cp m t e az).startAz = cp.startAz := by
  simp only [updatePass]
  split_ifs <;> rfl

lemma updatePass_end (cp : Pass) (m : ℚ) (t : ℤ) (e az : ℚ) :
    (updatePass cp m t e az).«end» = t := by
  simp only [updatePass]

lemma updatePass_maxEl (cp : Pass) (m : ℚ) (t : ℤ) (e az : ℚ) :
    (updatePass cp m t e az).maxEl = if m < e then e else cp.maxEl := by
  simp only [updatePass]
  split_ifs <;> rfl

lemma updatePass_maxElTime (cp : Pass) (m : ℚ) (t : ℤ) (e az : ℚ) :
    (updatePass cp m t e az).maxElTime = if m < e then t else cp.maxElTime := by
  simp only [updatePass]
  split_ifs <;> rfl



/-- Well-formedness of a pass record: chronological order of its times and
a peak at least the minimum elevation. -/
def passWF (q : Pass) : Prop :=
  q.start ≤ q.maxElTime ∧ q.maxElTime ≤ q.«end» ∧ MIN_ELEVATION_DEG ≤ q.maxEl

/-- Loop invariant: collected passes are well formed and were closed
strictly before the remaining samples; the result keeps this, with every
end at least two steps before the loop's final cursor position. -/
lemma computePassesAux_wf_end (obs : ℤ → Option (ℚ × ℚ)) :
    ∀ (fuel : ℕ) (t : ℤ) (ip : Bool) (cp : Option Pass) (m : ℚ) (acc : List Pass),
    (∀ q ∈ acc, passWF q ∧ q.«end» + 2 * stepMs ≤ t) →
    (∀ p, cp = some p → passWF p ∧ p.«end» + stepMs ≤ t) →
    ∀ q ∈ computePassesAux obs fuel t ip cp m acc,
      passWF q ∧ q.«end» + 2 * stepMs ≤ t + fuel * stepMs := by
  intro fuel
  induction fuel with
  | zero =>
    intro t ip cp m acc hacc hcp q hq
    rw [computePassesAux] at hq
    refine ⟨(hacc q hq).1, ?_⟩
    have := (hacc q hq).2
    simp only [Nat.cast_zero, zero_mul, add_zero]
    omega
  | succ fuel ih =>
    intro t ip cp m acc hacc hcp q hq
    have hbound : ∀ q : Pass, q.«end» + 2 * stepMs ≤ (t + stepMs) + fuel * stepMs →
        q.«end» + 2 * stepMs ≤ t + (fuel + 1 : ℕ) * stepMs := by
      intro q h
      have hc : ((fuel + 1 : ℕ) : ℤ) = (fuel : ℤ) + 1 := by push_cast; ring
      rw [hc]
      simp only [stepMs] at h ⊢
      omega
    have haccStep : ∀ q ∈ acc, passWF q ∧ q.«end» + 2 * stepMs ≤ t + stepMs := by
      intro q hq2
      refine ⟨(hacc q hq2).1, ?_⟩
      have := (hacc q hq2).2
      simp only [stepMs] at this ⊢
      omega
    cases hobs : obs t with
    | none =>
      rw [computePassesAux_step_none hobs] at hq
      have hcpStep : ∀ p, cp = some p → passWF p ∧ p.«end» + stepMs ≤ t + stepMs := by
        intro p hp
        refine ⟨(hcp p hp).1, ?_⟩
        have := (hcp p hp).2
        simp only [stepMs] at this ⊢
        omega
      have h2 := ih (t + stepMs) ip cp m acc haccStep hcpStep q hq
      exact ⟨h2.1, hbound q h2.2⟩
    | some pair =>
      obtain ⟨e, az⟩ := pair
      by_cases he : MIN_ELEVATION_DEG ≤ e
      · cases ip with
        | false =>
          rw [computePassesAux_step_open hobs he] at hq
          have hcpStep : ∀ p, some (newPass t e az) = some p →
              passWF p ∧ p.«end» + stepMs ≤ t + stepMs := by
            intro p hp
            obtain rfl : newPass t e az = p := by injection hp
            refine ⟨⟨by simp [newPass], by simp [newPass], by simpa [newPass] using he⟩,
              by simp [newPass]⟩
          have h2 := ih (t + stepMs) true _ e acc haccStep hcpStep q hq
          exact ⟨h2.1, hbound q h2.2⟩
        | true =>
          cases cp with
          | none =>
            rw [computePassesAux_step_junk_above hobs he] at hq
            have hcpStep : ∀ p : Pass, (none : Option Pass) = some p →
                passWF p ∧ p.«end» + stepMs ≤ t + stepMs := by
              intro p hp
              exact absurd hp (by simp)
            have h2 := ih (t + stepMs) true none m acc haccStep hcpStep q hq
            exact ⟨h2.1, hbound q h2.2⟩
          | some p =>
            rw [computePassesAux_step_update hobs he] at hq
            have hpw := hcp p rfl
            have hcpStep : ∀ p2, some (updatePass p m t e az) = some p2 →
                passWF p2 ∧ p2.«end» + stepMs ≤ t + stepMs := by
              intro p2 hp2
              obtain rfl : updatePass p m t e az = p2 := by injection hp2
              have hwf := hpw.1
              have hend := hpw.2
              constructor
              · refine ⟨?_, ?_, ?_⟩
                · rw [updatePass_maxElTime]
                  rw [updatePass_start]
                  split_ifs
                  · have h1 := hwf.1
                    have h2 := hwf.2.1
                    simp only [stepMs] at hend
                    omega
                  · exact hwf.1
                · rw [updatePass_maxElTime, updatePass_end]
                  split_ifs
                  · exact le_refl _
                  · have h2 := hwf.2.1
                    simp only [stepMs] at hend
                    omega
                · rw [updatePass_maxEl]
                  split_ifs
                  · exact he
                  · exact hwf.2.2
              · rw [updatePass_end]
            have h2 := ih (t + stepMs) true _ (newMax m e) acc haccStep hcpStep q hq
            exact ⟨h2.1, hbound q h2.2⟩
      · cases ip with
        | false =>
          rw [computePassesAux_step_below hobs he] at hq
          have hcpStep : ∀ p, cp = some p → passWF p ∧ p.«end» + stepMs ≤ t + stepMs := by
            intro p hp
            refine ⟨(hcp p hp).1, ?_⟩
            have := (hcp p hp).2
            simp only [stepMs] at this ⊢
            omega
          have h2 := ih (t + stepMs) false cp m acc haccStep hcpStep q hq
          exact ⟨h2.1, hbound q h2.2⟩
        | true =>
          cases cp with
          | none =>
            rw [computePassesAux_step_junk_below hobs he] at hq
            have hcpStep : ∀ p : Pass, (none : Option Pass) = some p →
                passWF p ∧ p.«end» + stepMs ≤ t + stepMs := by
              intro p hp
              exact absurd hp (by simp)
            have h2 := ih (t + stepMs) false none 0 acc haccStep hcpStep q hq
            exact ⟨h2.1, hbound q h2.2⟩
          | some p =>
            rw [computePassesAux_step_close hobs he] at hq
            have hpw := hcp p rfl
            have haccNew : ∀ q2 ∈ acc ++ [p], passWF q2 ∧ q2.«end» + 2 * stepMs ≤ t + stepMs := by
              intro q2 hq2
              rcases List.mem_append.1 hq2 with h2 | h2
              · exact haccStep q2 h2
              · obtain rfl : q2 = p := by simpa using h2
                refine ⟨hpw.1, ?_⟩
                have := hpw.2
                simp only [stepMs] at this ⊢
                omega
            split_ifs at hq with hlen
            · -- early return: `acc ++ [p]` at time `t`
              have h3 := haccNew q hq
              refine ⟨h3.1, ?_⟩
              have := h3.2
              have hc : ((fuel + 1 : ℕ) : ℤ) = (fuel : ℤ) + 1 := by push_cast; ring
              rw [hc]
              simp only [stepMs] at this ⊢
              omega
            · have hcpStep : ∀ p2 : Pass, (none : Option Pass) = some p2 →
                  passWF p2 ∧ p2.«end» + stepMs ≤ t + stepMs := by
                intro p2 hp2
                exact absurd hp2 (by simp)
              have h2 := ih (t + stepMs) false none 0 (acc ++ [p]) haccNew hcpStep q hq
              exact ⟨h2.1, hbound q h2.2⟩



/-- Loop invariant for the result list: at most 5 entries, in
chronological `start` order. -/
lemma computePassesAux_sorted (obs : ℤ → Option (ℚ × ℚ)) :
    ∀ (fuel : ℕ) (t : ℤ) (ip : Bool) (cp : Option Pass) (m : ℚ) (acc : List Pass),
    acc.length < 5 →
    acc.Pairwise (fun a b => a.start ≤ b.start) →
    (∀ q ∈ acc, q.start ≤ t) →
    (∀ p, cp = some p → p.start ≤ t ∧ ∀ q ∈ acc, q.start ≤ p.start) →
    (computePassesAux obs fuel t ip cp m acc).length ≤ 5 ∧
    (computePassesAux obs fuel t ip cp m acc).Pairwise (fun a b => a.start ≤ b.start) := by
  intro fuel
  induction fuel with
  | zero =>
    intro t ip cp m acc hlen hpw hacc hcp
    rw [computePassesAux]
    exact ⟨by omega, hpw⟩
  | succ fuel ih =>
    intro t ip cp m acc hlen hpw hacc hcp
    have haccStep : ∀ q ∈ acc, q.start ≤ t + stepMs := by
      intro q hq2
      have := hacc q hq2
      simp only [stepMs] at this ⊢
      omega
    cases hobs : obs t with
    | none =>
      rw [computePassesAux_step_none hobs]
      refine ih (t + stepMs) ip cp m acc hlen hpw haccStep ?_
      intro p hp
      have := hcp p hp
      refine ⟨?_, this.2⟩
      have h1 := this.1
      simp only [stepMs] at h1 ⊢
      omega
    | some pair =>
      obtain ⟨e, az⟩ := pair
      by_cases he : MIN_ELEVATION_DEG ≤ e
      · cases ip with
        | false =>
          rw [computePassesAux_step_open hobs he]
          refine ih (t + stepMs) true _ e acc hlen hpw haccStep ?_
          intro p hp
          obtain rfl : newPass t e az = p := by injection hp
          refine ⟨by simp [newPass, stepMs], ?_⟩
          intro q hq2
          have := hacc q hq2
          simp [newPass]
          omega
        | true =>
          cases cp with
          | none =>
            rw [computePassesAux_step_junk_above hobs he]
            refine ih (t + stepMs) true none m acc hlen hpw haccStep ?_
            intro p hp
            exact absurd hp (by simp)
          | some p =>
            rw [computePassesAux_step_update hobs he]
            have hps := hcp p rfl
            refine ih (t + stepMs) true _ (newMax m e) acc hlen hpw haccStep ?_
            intro p2 hp2
            obtain rfl : updatePass p m t e az = p2 := by injection hp2
            rw [updatePass_start]
            refine ⟨?_, hps.2⟩
            have h1 := hps.1
            simp only [stepMs] at h1 ⊢
            omega
      · cases ip with
        | false =>
          rw [computePassesAux_step_below hobs he]
          refine ih (t + stepMs) false cp m acc hlen hpw haccStep ?_
          intro p hp
          have := hcp p hp
          refine ⟨?_, this.2⟩
          have h1 := this.1
          simp only [stepMs] at h1 ⊢
          omega
        | true =>
          cases cp with
          | none =>
            rw [computePassesAux_step_junk_below hobs he]
            refine ih (t + stepMs) false none 0 acc hlen hpw haccStep ?_
            intro p hp
            exact absurd hp (by simp)
          | some p =>
            rw [computePassesAux_step_close hobs he]
            have hps := hcp p rfl
            have hpwNew : (acc ++ [p]).Pairwise (fun a b => a.start ≤ b.start) := by
              rw [List.pairwise_append]
              refine ⟨hpw, List.pairwise_singleton _ _, ?_⟩
              intro a ha b hb
              obtain rfl : b = p := by simpa using hb
              exact hps.2 a ha
            split_ifs with hlen2
            · constructor
              · simp only [List.length_append, List.length_singleton]
                omega
              · exact hpwNew
            · refine ih (t + stepMs) false none 0 (acc ++ [p])
                (by simp at hlen2 ⊢; omega) hpwNew ?_ (by intro p2 hp2; exact absurd hp2 (by simp))
              intro q hq2
              rcases List.mem_append.1 hq2 with h2 | h2
              · exact haccStep q h2
              · obtain rfl : q = p := by simpa using h2
                have h1 := hps.1
                simp only [stepMs] at h1 ⊢
                omega


/-- C2: for every propagation behaviour and start time, `computePasses`
returns at most 5 passes, in increasing time order (each pass's start is
not earlier than the previous pass's start). -/
theorem c2_at_most_five_sorted (obs : ℤ → Option (ℚ × ℚ)) (now : ℤ) :
    (computePasses obs now).length ≤ 5 ∧
    (computePasses obs now).Pairwise (fun a b => a.start ≤ b.start) := by
  unfold computePasses
  exact computePassesAux_sorted obs numSteps now false none 0 []
    (by simp) (by simp) (by simp) (by intro p hp; exact absurd hp (by simp))

/-- C10: every pass returned by `computePasses` is well formed: its start
is not later than its maximum-elevation time, which is not later than its
end, and its maximum elevation is at least the 10° threshold. -/
theorem c10_passes_well_formed (obs : ℤ → Option (ℚ × ℚ)) (now : ℤ) (p : Pass)
    (hp : p ∈ computePasses obs now) :
    p.start ≤ p.maxElTime ∧ p.maxElTime ≤ p.«end» ∧ MIN_ELEVATION_DEG ≤ p.maxEl := by
  have h := computePassesAux_wf_end obs numSteps now false none 0 []
    (by simp) (by intro q hq; exact absurd hq (by simp)) p hp
  exact h.1

/-- C3: when the sampled elevation is at or above the threshold at the
final sample of the 48-hour window (and never drops below it again after
some sample), the pass still in progress at the window end is absent from
the result: no returned pass ends at the final sample time. -/
theorem c3_open_pass_dropped (el az : ℤ → ℚ) (now : ℤ) (j : ℕ) (hj : j < numSteps)
    (htail : ∀ i : ℕ, j ≤ i → i < numSteps →
      MIN_ELEVATION_DEG ≤ el (now + (i : ℤ) * stepMs)) :
    ∀ p ∈ computePasses (fun t => some (el t, az t)) now,
      p.«end» ≠ now + ((numSteps - 1 : ℕ) : ℤ) * stepMs := by
  intro p hp
  have h := computePassesAux_wf_end (fun t => some (el t, az t)) numSteps now false none 0 []
    (by simp) (by intro q hq; exact absurd hq (by simp)) p hp
  have h2 := h.2
  have hn : ((numSteps : ℕ) : ℤ) = 17280 := by norm_num [numSteps]
  have hn1 : ((numSteps - 1 : ℕ) : ℤ) = 17279 := by norm_num [numSteps]
  rw [hn] at h2
  rw [hn1]
  simp only [stepMs] at h2 ⊢
  omega


/-- Skipping below-threshold samples while outside a pass leaves the state
unchanged apart from the cursor. -/
lemma computePassesAux_skip_below (el az : ℤ → ℚ) :
    ∀ (j : ℕ) (fuel : ℕ) (t : ℤ) (m : ℚ) (acc : List Pass), j ≤ fuel →
    (∀ k : ℕ, k < j → ¬ MIN_ELEVATION_DEG ≤ el (t + (k : ℤ) * stepMs)) →
    computePassesAux (fun s => some (el s, az s)) fuel t false none m acc
      = computePassesAux (fun s => some (el s, az s)) (fuel - j) (t + (j : ℤ) * stepMs)
          false none m acc := by
  intro j
  induction j with
  | zero =>
    intro fuel t m acc hle hbelow
    simp
  | succ j ih =>
    intro fuel t m acc hle hbelow
    obtain ⟨f, rfl⟩ : ∃ f, fuel = f + 1 := ⟨fuel - 1, by omega⟩
    have h0 := hbelow 0 (by omega)
    simp only [Nat.cast_zero, zero_mul, add_zero] at h0
    rw [computePassesAux_step_below rfl h0]
    have ihs := ih f (t + stepMs) m acc (by omega) ?_
    · rw [ihs]
      congr 1
      · omega
      · push_cast
        simp only [stepMs]
        ring
    · intro k hk
      have := hbelow (k + 1) (by omega)
      have harg : t + stepMs + (k : ℤ) * stepMs = t + ((k : ℕ) + 1 : ℤ) * stepMs := by
        simp only [stepMs]
        ring
      rw [harg]
      push_cast at this ⊢
      exact this

/-- Running `j` consecutive above-threshold samples from within a pass:
the iterated state update. -/
def runPass (el az : ℤ → ℚ) (t : ℤ) (p : Pass) (m : ℚ) : ℕ → Pass × ℚ
  | 0 => (p, m)
  | j + 1 =>
    let pm := runPass el az t p m j
    (updatePass pm.1 pm.2 (t + (j : ℤ) * stepMs) (el (t + (j : ℤ) * stepMs))
       (az (t + (j : ℤ) * stepMs)),
     newMax pm.2 (el (t + (j : ℤ) * stepMs)))

/-- While the next `j` samples stay at or above the threshold, the loop
stays in the pass and applies the per-sample update `j` times. -/
lemma computePassesAux_run (el az : ℤ → ℚ) :
    ∀ (j : ℕ) (fuel : ℕ) (t : ℤ) (p : Pass) (m : ℚ) (acc : List Pass), j ≤ fuel →
    (∀ k : ℕ, k < j → MIN_ELEVATION_DEG ≤ el (t + (k : ℤ) * stepMs)) →
    computePassesAux (fun s => some (el s, az s)) fuel t true (some p) m acc
      = computePassesAux (fun s => some (el s, az s)) (fuel - j) (t + (j : ℤ) * stepMs)
          true (some (runPass el az t p m j).1) (runPass el az t p m j).2 acc := by
  intro j
  induction j with
  | zero =>
    intro fuel t p m acc hle habove
    simp [runPass]
  | succ j ih =>
    intro fuel t p m acc hle habove
    rw [ih fuel t p m acc (by omega) (fun k hk => habove k (by omega))]
    obtain ⟨f, hf⟩ : ∃ f, fuel - j = f + 1 := ⟨fuel - j - 1, by omega⟩
    rw [hf]
    have hj := habove j (by omega)
    rw [computePassesAux_step_update rfl hj]
    have harg : fuel - (j + 1) = f := by omega
    rw [harg]
    have htime : t + (j : ℤ) * stepMs + stepMs = t + ((j : ℕ) + 1 : ℤ) * stepMs := by
      simp only [stepMs]
      push_cast
      ring
    rw [htime]
    have hrp : runPass el az t p m (j + 1)
        = (updatePass (runPass el az t p m j).1 (runPass el az t p m j).2
             (t + (j : ℤ) * stepMs) (el (t + (j : ℤ) * stepMs)) (az (t + (j : ℤ) * stepMs)),
           newMax (runPass el az t p m j).2 (el (t + (j : ℤ) * stepMs))) := rfl
    rw [hrp]
    rfl


lemma runPass_start (el az : ℤ → ℚ) (t : ℤ) (p : Pass) (m : ℚ) :
    ∀ j : ℕ, (runPass el az t p m j).1.start = p.start := by
  intro j
  induction j with
  | zero => rfl
  | succ j ih =>
    show (updatePass _ _ _ _ _).start = p.start
    rw [updatePass_start, ih]

lemma runPass_startAz (el az : ℤ → ℚ) (t : ℤ) (p : Pass) (m : ℚ) :
    ∀ j : ℕ, (runPass el az t p m j).1.startAz = p.startAz := by
  intro j
  induction j with
  | zero => rfl
  | succ j ih =>
    show (updatePass _ _ _ _ _).startAz = p.startAz
    rw [updatePass_startAz, ih]

lemma runPass_end (el az : ℤ → ℚ) (t : ℤ) (p : Pass) (m : ℚ) (j : ℕ) (hj : 1 ≤ j) :
    (runPass el az t p m j).1.«end» = t + ((j : ℤ) - 1) * stepMs := by
  obtain ⟨k, rfl⟩ : ∃ k, j = k + 1 := ⟨j - 1, by omega⟩
  show (updatePass _ _ _ _ _).«end» = _
  rw [updatePass_end]
  push_cast
  ring

/-- The running maximum carried by the loop agrees with the `maxEl` field
of the pass being built, as in the source. -/
lemma runPass_maxEl_eq (el az : ℤ → ℚ) (t : ℤ) (p : Pass) (m : ℚ) (h : p.maxEl = m) :
    ∀ j : ℕ, (runPass el az t p m j).1.maxEl = (runPass el az t p m j).2 := by
  intro j
  induction j with
  | zero => exact h
  | succ j ih =>
    show (updatePass _ _ _ _ _).maxEl = newMax _ _
    rw [updatePass_maxEl, newMax, ih]

/-- The running maximum after `j` samples is the fold of `max` over those
samples. -/
lemma runPass_snd (el az : ℤ → ℚ) (t : ℤ) (p : Pass) (m : ℚ) :
    ∀ j : ℕ, (runPass el az t p m j).2
      = (List.range j).foldl (fun acc (k : ℕ) => newMax acc (el (t + (k : ℤ) * stepMs))) m := by
  intro j
  induction j with
  | zero => rfl
  | succ j ih =>
    show newMax (runPass el az t p m j).2 _ = _
    rw [List.range_succ, List.foldl_append, List.foldl_cons, List.foldl_nil, ih]


lemma newMax_eq_max (a b : ℚ) : newMax a b = max a b := by
  rw [newMax, max_def]
  split_ifs with h1 h2 h2
  · rfl
  · exact absurd (le_of_lt h1) h2
  · exact le_antisymm h2 (not_lt.1 h1)
  · rfl

lemma foldl_congr_fun {α β : Type} {f g : α → β → α} (h : ∀ x y, f x y = g x y) :
    ∀ (l : List β) (init : α), l.foldl f init = l.foldl g init := by
  intro l
  induction l with
  | nil => intro init; rfl
  | cons x xs ih =>
    intro init
    rw [List.foldl_cons, List.foldl_cons, h, ih]

/-- The maximum sampled elevation over the sample indices `a..b`
(inclusive), as a fold of `max`. -/
def intervalMaxEl (el : ℤ → ℚ) (now : ℤ) (a b : ℕ) : ℚ :=
  (List.range (b + 1 - a)).foldl
    (fun acc (k : ℕ) => max acc (el (now + ((a + k : ℕ) : ℤ) * stepMs)))
    (el (now + (a : ℤ) * stepMs))

/-- The `maxEl` field built by the in-pass updates over samples `a+1..b`,
starting from the pass opened at sample `a`, is the sampled maximum over
`a..b`. -/
lemma runPass_maxEl_intervalMax (el az : ℤ → ℚ) (now : ℤ) (a b : ℕ) (hab : a ≤ b) :
    (runPass el az (now + (a : ℤ) * stepMs + stepMs)
        (newPass (now + (a : ℤ) * stepMs) (el (now + (a : ℤ) * stepMs))
          (az (now + (a : ℤ) * stepMs)))
        (el (now + (a : ℤ) * stepMs)) (b - a)).1.maxEl
      = intervalMaxEl el now a b := by
  have hbase0 : (newPass (now + (a : ℤ) * stepMs) (el (now + (a : ℤ) * stepMs))
      (az (now + (a : ℤ) * stepMs))).maxEl = el (now + (a : ℤ) * stepMs) := rfl
  rw [runPass_maxEl_eq el az _ _ _ hbase0, runPass_snd]
  unfold intervalMaxEl
  have h1 : b + 1 - a = (b - a) + 1 := by omega
  rw [h1, List.range_succ_eq_map, List.foldl_cons, List.foldl_map]
  have hbase : max (el (now + (a : ℤ) * stepMs)) (el (now + ((a + 0 : ℕ) : ℤ) * stepMs))
      = el (now + (a : ℤ) * stepMs) := by
    norm_num
  rw [hbase]
  refine foldl_congr_fun ?_ (List.range (b - a)) _
  intro x y
  rw [newMax_eq_max]
  congr 2
  push_cast
  ring


/-- C1: for every (total) synthetic propagation behaviour whose sampled
elevation profile is at or above the 10° threshold exactly on one
contiguous block of 30 samples (300 s of the 10-second grid) strictly
inside the 48-hour window, `computePasses` returns exactly one pass, its
duration `end - start` is 290 s (300 s up to one sampling step), and its
`maxEl` is the maximum sampled elevation over that block. -/
theorem c1_single_interval_pass (el az : ℤ → ℚ) (now : ℤ) (a b : ℕ)
    (hab : a ≤ b) (hspan : b - a = 29) (hb : b + 1 < numSteps)
    (hin : ∀ i : ℕ, a ≤ i → i ≤ b → MIN_ELEVATION_DEG ≤ el (now + (i : ℤ) * stepMs))
    (hout : ∀ i : ℕ, i < numSteps → (i < a ∨ b < i) →
      el (now + (i : ℤ) * stepMs) < MIN_ELEVATION_DEG) :
    ∃ p : Pass, computePasses (fun t => some (el t, az t)) now = [p]
      ∧ p.«end» - p.start = 290000
      ∧ (p.«end» - p.start - 300000).natAbs ≤ 10000
      ∧ p.maxEl = intervalMaxEl el now a b := by
  have hN : numSteps = 17280 := by norm_num [numSteps]
  refine ⟨(runPass el az (now + (a : ℤ) * stepMs + stepMs)
      (newPass (now + (a : ℤ) * stepMs) (el (now + (a : ℤ) * stepMs))
        (az (now + (a : ℤ) * stepMs)))
      (el (now + (a : ℤ) * stepMs)) (b - a)).1, ?_, ?_, ?_, ?_⟩
  · -- the computation returns exactly this pass
    unfold computePasses
    have hbelow1 : ∀ k : ℕ, k < a → ¬ MIN_ELEVATION_DEG ≤ el (now + (k : ℤ) * stepMs) :=
      fun k hk => not_le.2 (hout k (by omega) (Or.inl hk))
    rw [computePassesAux_skip_below el az a numSteps now 0 [] (by omega) hbelow1]
    obtain ⟨f1, hf1⟩ : ∃ f1, numSteps - a = f1 + 1 := ⟨numSteps - a - 1, by omega⟩
    rw [hf1]
    have hA : MIN_ELEVATION_DEG ≤ el (now + (a : ℤ) * stepMs) := hin a le_rfl hab
    rw [computePassesAux_step_open rfl hA]
    have habove : ∀ k : ℕ, k < b - a →
        MIN_ELEVATION_DEG ≤ el (now + (a : ℤ) * stepMs + stepMs + (k : ℤ) * stepMs) := by
      intro k hk
      have h2 := hin (a + 1 + k) (by omega) (by omega)
      have harg : now + (a : ℤ) * stepMs + stepMs + (k : ℤ) * stepMs
          = now + ((a + 1 + k : ℕ) : ℤ) * stepMs := by
        push_cast
        ring
      rw [harg]
      exact h2
    rw [computePassesAux_run el az (b - a) f1 _ _ _ [] (by omega) habove]
    obtain ⟨f2, hf2⟩ : ∃ f2, f1 - (b - a) = f2 + 1 := ⟨f1 - (b - a) - 1, by omega⟩
    rw [hf2]
    have hbelow2 : ¬ MIN_ELEVATION_DEG ≤
        el (now + (a : ℤ) * stepMs + stepMs + ((b - a : ℕ) : ℤ) * stepMs) := by
      refine not_le.2 ?_
      have h2 := hout (b + 1) (by omega) (Or.inr (by omega))
      have harg : now + (a : ℤ) * stepMs + stepMs + ((b - a : ℕ) : ℤ) * stepMs
          = now + ((b + 1 : ℕ) : ℤ) * stepMs := by
        push_cast [hab]
        ring
      rw [harg]
      exact h2
    rw [computePassesAux_step_close rfl hbelow2]
    rw [if_neg (by simp)]
    simp only [List.nil_append]
    have hbelow3 : ∀ k : ℕ, k < f2 → ¬ MIN_ELEVATION_DEG ≤
        el (now + (a : ℤ) * stepMs + stepMs + ((b - a : ℕ) : ℤ) * stepMs + stepMs
          + (k : ℤ) * stepMs) := by
      intro k hk
      refine not_le.2 ?_
      have h2 := hout (b + 2 + k) (by omega) (Or.inr (by omega))
      have harg : now + (a : ℤ) * stepMs + stepMs + ((b - a : ℕ) : ℤ) * stepMs + stepMs
          + (k : ℤ) * stepMs = now + ((b + 2 + k : ℕ) : ℤ) * stepMs := by
        push_cast [hab]
        ring
      rw [harg]
      exact h2
    rw [computePassesAux_skip_below el az f2 f2 _ 0 _ le_rfl hbelow3]
    rw [Nat.sub_self, computePassesAux]
  · -- duration is exactly 29 steps = 290 s
    rw [runPass_end el az _ _ _ (b - a) (by omega), runPass_start]
    rw [hspan]
    show now + (a : ℤ) * stepMs + stepMs + (((29 : ℕ) : ℤ) - 1) * stepMs
      - (newPass (now + (a : ℤ) * stepMs) _ _).start = 290000
    rw [show (newPass (now + (a : ℤ) * stepMs) (el (now + (a : ℤ) * stepMs))
      (az (now + (a : ℤ) * stepMs))).start = now + (a : ℤ) * stepMs from rfl]
    norm_num [stepMs]
    omega
  · -- within one sampling step of 300 s
    rw [runPass_end el az _ _ _ (b - a) (by omega), runPass_start]
    rw [hspan]
    rw [show (newPass (now + (a : ℤ) * stepMs) (el (now + (a : ℤ) * stepMs))
      (az (now + (a : ℤ) * stepMs))).start = now + (a : ℤ) * stepMs from rfl]
    norm_num [stepMs]
    omega
  · exact runPass_maxEl_intervalMax el az now a b hab


/-- Synthetic elevation profile for the C1 witness: 45° during
`[10000 ms, 300000 ms]` (samples 1..30), 0° elsewhere. -/
def elWitness (t : ℤ) : ℚ := if 10000 ≤ t ∧ t ≤ 300000 then 45 else 0

/-- Constant zero azimuth for synthetic witnesses. -/
def azZero (_ : ℤ) : ℚ := 0

lemma elWitness_hin : ∀ i : ℕ, 1 ≤ i → i ≤ 30 →
    MIN_ELEVATION_DEG ≤ elWitness (0 + (i : ℤ) * stepMs) := by
  intro i h1 h2
  have hc : 10000 ≤ 0 + (i : ℤ) * stepMs ∧ 0 + (i : ℤ) * stepMs ≤ 300000 := by
    simp only [stepMs]
    constructor <;> omega
  rw [elWitness, if_pos hc]
  norm_num [MIN_ELEVATION_DEG]

lemma elWitness_hout : ∀ i : ℕ, i < numSteps → (i < 1 ∨ 30 < i) →
    elWitness (0 + (i : ℤ) * stepMs) < MIN_ELEVATION_DEG := by
  intro i hi hcase
  have hc : ¬(10000 ≤ 0 + (i : ℤ) * stepMs ∧ 0 + (i : ℤ) * stepMs ≤ 300000) := by
    simp only [stepMs]
    rintro ⟨ha, hb2⟩
    rcases hcase with h | h <;> omega
  rw [elWitness, if_neg hc]
  norm_num [MIN_ELEVATION_DEG]

/-- Witness for C1: the block is samples 1..30 of the grid from `now = 0`. -/
theorem c1_single_interval_pass_witness :
    ((1 : ℕ) ≤ 30 ∧ (30 : ℕ) - 1 = 29 ∧ 30 + 1 < numSteps ∧
      (∀ i : ℕ, 1 ≤ i → i ≤ 30 → MIN_ELEVATION_DEG ≤ elWitness (0 + (i : ℤ) * stepMs)) ∧
      (∀ i : ℕ, i < numSteps → (i < 1 ∨ 30 < i) →
        elWitness (0 + (i : ℤ) * stepMs) < MIN_ELEVATION_DEG)) ∧
    (∃ p : Pass, computePasses (fun t => some (elWitness t, azZero t)) 0 = [p]
      ∧ p.«end» - p.start = 290000
      ∧ (p.«end» - p.start - 300000).natAbs ≤ 10000
      ∧ p.maxEl = intervalMaxEl elWitness 0 1 30) :=
  ⟨⟨by decide, by decide, by norm_num [numSteps], elWitness_hin, elWitness_hout⟩,
   c1_single_interval_pass elWitness azZero 0 1 30 (by decide) (by decide)
     (by norm_num [numSteps]) elWitness_hin elWitness_hout⟩

/-- Synthetic elevation profile for the C10 witness: a single
above-threshold sample at `t = 0`. -/
def elSpike (t : ℤ) : ℚ := if t = 0 then 45 else 0

/-- The C10 witness run: the profile with one above-threshold sample
yields exactly the pass opened and left at that sample. -/
lemma computePasses_elSpike :
    computePasses (fun t => some (elSpike t, azZero t)) 0 = [newPass 0 45 0] := by
  unfold computePasses
  have hN : numSteps = 17280 := by norm_num [numSteps]
  rw [hN]
  have h0 : MIN_ELEVATION_DEG ≤ elSpike 0 := by norm_num [elSpike, MIN_ELEVATION_DEG]
  rw [show (17280 : ℕ) = 17279 + 1 from rfl]
  rw [computePassesAux_step_open rfl h0]
  have h1 : ¬ MIN_ELEVATION_DEG ≤ elSpike (0 + stepMs) := by
    norm_num [elSpike, stepMs, MIN_ELEVATION_DEG]
  rw [show (17279 : ℕ) = 17278 + 1 from rfl]
  rw [computePassesAux_step_close rfl h1]
  rw [if_neg (by simp)]
  simp only [List.nil_append]
  have hbelow : ∀ k : ℕ, k < 17278 →
      ¬ MIN_ELEVATION_DEG ≤ elSpike (0 + stepMs + stepMs + (k : ℤ) * stepMs) := by
    intro k hk
    have hne : ¬ (0 + stepMs + stepMs + (k : ℤ) * stepMs = 0) := by
      simp only [stepMs]
      omega
    rw [elSpike, if_neg hne]
    norm_num [MIN_ELEVATION_DEG]
  rw [computePassesAux_skip_below elSpike azZero 17278 17278 _ 0 _ le_rfl hbelow]
  rw [Nat.sub_self, computePassesAux]
  have : elSpike 0 = 45 := by norm_num [elSpike]
  rw [show newPass 0 (elSpike 0) (azZero 0) = newPass 0 45 0 by rw [this]; rfl]

/-- Witness for C10 at the single-sample pass of `elSpike`. -/
theorem c10_passes_well_formed_witness :
    newPass 0 45 0 ∈ computePasses (fun t => some (elSpike t, azZero t)) 0 ∧
    ((newPass 0 45 0).start ≤ (newPass 0 45 0).maxElTime ∧
      (newPass 0 45 0).maxElTime ≤ (newPass 0 45 0).«end» ∧
      MIN_ELEVATION_DEG ≤ (newPass 0 45 0).maxEl) :=
  ⟨by rw [computePasses_elSpike]; exact List.mem_singleton.2 rfl,
   c10_passes_well_formed _ 0 _
     (by rw [computePasses_elSpike]; exact List.mem_singleton.2 rfl)⟩

/-- Constant 45° elevation for the C3 witness: above threshold at every
sample, in particular never dropping below again before the window ends. -/
def elHigh (_ : ℤ) : ℚ := 45

lemma elHigh_tail : ∀ i : ℕ, 0 ≤ i → i < numSteps →
    MIN_ELEVATION_DEG ≤ elHigh (0 + (i : ℤ) * stepMs) := by
  intro i _ _
  norm_num [elHigh, MIN_ELEVATION_DEG]

/-- Witness for C3: constant above-threshold elevation from sample 0 on. -/
theorem c3_open_pass_dropped_witness :
    ((0 : ℕ) < numSteps ∧
      (∀ i : ℕ, 0 ≤ i → i < numSteps → MIN_ELEVATION_DEG ≤ elHigh (0 + (i : ℤ) * stepMs))) ∧
    (∀ p ∈ computePasses (fun t => some (elHigh t, azZero t)) 0,
      p.«end» ≠ 0 + ((numSteps - 1 : ℕ) : ℤ) * stepMs) :=
  ⟨⟨by norm_num [numSteps], elHigh_tail⟩,
   c3_open_pass_dropped elHigh azZero 0 0 (by norm_num [numSteps]) elHigh_tail⟩

end OrbitWatch
